/-
Verification of the unification-based backward-chaining inference engine
(`Task7.py`): term model, knowledge base, unification, renaming, and the
recursive proof search, embedded shallowly.  Python's unbounded recursion
(`Unification.unify` on cyclic substitutions, `prove`/`_prove_body` on
recursive rule sets) is modelled with an explicit fuel parameter: a `none`
result means the computation did not complete within the given fuel, and a
`some` result is the value the Python code returns.  Python dictionaries are
modelled as insertion-ordered association lists with unique keys, which is
what `dict` guarantees; in-place mutation of the substitution dictionary
inside `unify` is made explicit by returning the final state of the
dictionary alongside the success/failure verdict.
-/
import Mathlib

set_option maxHeartbeats 1000000
set_option maxRecDepth 2048

/-- Python `c` is a cased character (ASCII fragment: the source only ever
builds names from ASCII letters, digits and underscores). -/
def pyCased (c : Char) : Bool := c.isLower || c.isUpper

/-- Python `str.isupper()`: at least one cased character and no lowercase
character (ASCII fragment, see `pyCased`). -/
def pyIsupper (s : String) : Bool :=
  s.data.any pyCased && s.data.all (fun c => !c.isLower)

mutual
/-- `Term` from `Task7.py`: a name plus a list of arguments.  Arguments are
heterogeneous in the Python source: raw strings at construction sites,
`Term` objects after substitution. -/
inductive Term where
  | mk (name : String) (args : List Arg)
/-- One argument position of a `Term`: either a raw Python string or a
nested `Term` object, mirroring the duck-typed argument lists. -/
inductive Arg where
  | s (v : String)
  | t (v : Term)
end

mutual
def Term.beq : Term → Term → Bool
  | .mk n1 a1, .mk n2 a2 => n1 == n2 && Arg.beqList a1 a2
def Arg.beq : Arg → Arg → Bool
  | .s v1, .s v2 => v1 == v2
  | .t v1, .t v2 => Term.beq v1 v2
  | _, _ => false
def Arg.beqList : List Arg → List Arg → Bool
  | [], [] => true
  | x :: xs, y :: ys => Arg.beq x y && Arg.beqList xs ys
  | _, _ => false
end

mutual
theorem termBeq_iff : ∀ t1 t2 : Term, Term.beq t1 t2 = true ↔ t1 = t2
  | .mk n1 a1, .mk n2 a2 => by
    simp only [Term.beq, Bool.and_eq_true, beq_iff_eq, Term.mk.injEq]
    exact and_congr Iff.rfl (argBeqList_iff a1 a2)
theorem argBeq_iff : ∀ a1 a2 : Arg, Arg.beq a1 a2 = true ↔ a1 = a2
  | .s v1, .s v2 => by simp [Arg.beq]
  | .t v1, .t v2 => by
    simp only [Arg.beq, Arg.t.injEq]
    exact termBeq_iff v1 v2
  | .s _, .t _ => by simp [Arg.beq]
  | .t _, .s _ => by simp [Arg.beq]
theorem argBeqList_iff : ∀ l1 l2 : List Arg, Arg.beqList l1 l2 = true ↔ l1 = l2
  | [], [] => by simp [Arg.beqList]
  | x :: xs, y :: ys => by
    simp only [Arg.beqList, Bool.and_eq_true, List.cons.injEq]
    exact and_congr (argBeq_iff x y) (argBeqList_iff xs ys)
  | [], _ :: _ => by simp [Arg.beqList]
  | _ :: _, [] => by simp [Arg.beqList]
end

instance : DecidableEq Term := fun t1 t2 =>
  decidable_of_iff (Term.beq t1 t2 = true) (termBeq_iff t1 t2)

instance : DecidableEq Arg := fun a1 a2 =>
  decidable_of_iff (Arg.beq a1 a2 = true) (argBeq_iff a1 a2)

def Term.name : Term → String
  | .mk n _ => n

def Term.args : Term → List Arg
  | .mk _ a => a

/-- `self.is_variable = name.isupper()` set in `Term.__init__` (the name is
always a string at every call site). -/
def Term.is_variable (t : Term) : Bool := pyIsupper t.name

mutual
/-- `Term.__str__`: `name(arg1, ..., argN)` when there are arguments, the
bare name otherwise. -/
def Term.render : Term → String
  | .mk n [] => n
  | .mk n (a :: rest) => n ++ "(" ++ String.intercalate ", " (Arg.renderList (a :: rest)) ++ ")"
def Arg.render : Arg → String
  | .s v => v
  | .t v => Term.render v
def Arg.renderList : List Arg → List String
  | [] => []
  | a :: rest => Arg.render a :: Arg.renderList rest
end

/-- `Clause`: a head term plus a list of body terms (empty for facts). -/
structure Clause where
  head : Term
  body : List Term
deriving DecidableEq

def Clause.is_fact (c : Clause) : Bool := c.body.length == 0

def Clause.is_rule (c : Clause) : Bool := c.body.length > 0

/-- `Clause.__str__`: `head` for a fact, `head :- b1, b2, ...` for a rule. -/
def Clause.render (c : Clause) : String :=
  if c.body.length == 0 then c.head.render
  else c.head.render ++ " :- " ++ String.intercalate ", " (c.body.map Term.render)

/-- `KnowledgeBase`: ordered clause list plus the ground-fact cache
(`self.facts`, a Python set, modelled as a duplicate-free list; the search
path never reads it). -/
structure KnowledgeBase where
  clauses : List Clause
  facts : List Term
deriving DecidableEq

def KnowledgeBase.empty : KnowledgeBase := ⟨[], []⟩

/-- `KnowledgeBase.add_fact`: wrap `Term(predicate, list(args))` in a fact
clause and append it; additionally cache the term in `self.facts` when no
argument is an uppercase string.  All `add_fact` call sites pass raw
strings as arguments. -/
def KnowledgeBase.add_fact (kb : KnowledgeBase) (predicate : String) (args : List String) : KnowledgeBase :=
  let term : Term := .mk predicate (args.map Arg.s)
  { clauses := kb.clauses ++ [⟨term, []⟩]
    facts := if args.any pyIsupper then kb.facts
             else if term ∈ kb.facts then kb.facts else kb.facts ++ [term] }

/-- `KnowledgeBase.add_rule`: build the head term and one term per
`(predicate, args)` body condition, append the rule clause.  All call
sites pass raw strings inside the argument lists. -/
def KnowledgeBase.add_rule (kb : KnowledgeBase) (head_pred : String) (head_args : List String)
    (body_conditions : List (String × List String)) : KnowledgeBase :=
  { clauses := kb.clauses ++
      [⟨.mk head_pred (head_args.map Arg.s),
        body_conditions.map (fun pc => Term.mk pc.1 (pc.2.map Arg.s))⟩]
    facts := kb.facts }

/-- The clause scan of `KnowledgeBase.get_matching_clauses`, parameterised
by the clause list (the method reads nothing else from the knowledge
base). -/
def matchingClauses (clauses : List Clause) (goal : Term) : List Clause :=
  clauses.filter (fun c => c.head.name == goal.name && c.head.args.length == goal.args.length)

/-- `KnowledgeBase.get_matching_clauses`: same predicate name and same
argument count as the goal, in insertion order. -/
def KnowledgeBase.get_matching_clauses (kb : KnowledgeBase) (goal : Term) : List Clause :=
  matchingClauses kb.clauses goal

/-- A substitution: Python `dict` mapping variable names to `Term` values,
modelled as an insertion-ordered association list with unique keys. -/
abbrev Subst : Type := List (String × Term)

/-- Python `substitution[name]` / `name in substitution`: first (unique)
matching key. -/
def subLookup : Subst → String → Option Term
  | [], _ => none
  | (k, v) :: rest, n => if k = n then some v else subLookup rest n

/-- Python `substitution[name] = t`: overwrite in place when the key exists,
append otherwise. -/
def subSet : Subst → String → Term → Subst
  | [], n, t => [(n, t)]
  | (k, v) :: rest, n, t => if k = n then (k, t) :: rest else (k, v) :: subSet rest n t

/-- Insertion step for `sorted(substitution.items())` (keys are unique, so
sorting by key alone reproduces Python's tuple ordering). -/
def insertSorted (p : String × Term) : List (String × Term) → List (String × Term)
  | [] => [p]
  | q :: rest => if p.1 ≤ q.1 then p :: q :: rest else q :: insertSorted p rest

/-- `tuple(sorted(substitution.items()))`. -/
def sortSub (s : Subst) : List (String × Term) :=
  s.foldr insertSorted []

namespace Unification

/-- The binding consulted by `substitute` for a name: `substitution[name]`
when the name satisfies the variable convention and is bound, nothing
otherwise. -/
def substVar (s : Subst) (n : String) : Option Term :=
  if pyIsupper n then subLookup s n else none

mutual
/-- `Unification.substitute`: a variable whose name is bound is replaced by
its binding (one dereference, the binding is not substituted further);
otherwise compound arguments are substituted recursively, uppercase string
arguments being looked up directly.  (For an empty argument list the Python
code returns the term itself, which is structurally identical to the
rebuilt term here.) -/
def substitute (t : Term) (s : Subst) : Term :=
  match t with
  | .mk n args => (substVar s n).getD (.mk n (substituteArgs args s))
/-- The argument loop of `Unification.substitute`: `Term` arguments are
substituted recursively, bound uppercase string arguments are replaced by
their binding (a `Term`), all other arguments are kept. -/
def substituteArgs (args : List Arg) (s : Subst) : List Arg :=
  match args with
  | [] => []
  | .t v :: rest => .t (substitute v s) :: substituteArgs rest s
  | .s v :: rest => ((substVar s v).map Arg.t).getD (Arg.s v) :: substituteArgs rest s
end

/-- `Term(arg)` wrapping performed in the compound-argument loop of
`unify`: a raw string becomes a `Term` with that name and no arguments, a
`Term` is kept. -/
def argToTerm : Arg → Term
  | .s v => .mk v []
  | .t v => v

/-- Result of one `unify` call: the Python return value (`ok` for a dict,
`fail` for `None`) together with the final state of the dictionary object
the caller passed in (which `unify` mutates in place). -/
inductive URes where
  | ok (s : Subst)
  | fail (s : Subst)
deriving DecidableEq

/-- The final state of the dictionary passed to `unify`, whatever the
verdict. -/
def URes.state : URes → Subst
  | .ok s => s
  | .fail s => s

mutual
/-- `Unification.unify`, fuel-indexed (the Python function recurses through
bound-variable chains and substituted compound arguments, neither of which
is structurally decreasing; `none` means the recursion did not bottom out
within `fuel` nested calls). -/
def unify (fuel : Nat) (t1 t2 : Term) (s : Subst) : Option URes :=
  match fuel with
  | 0 => none
  | f + 1 =>
    let t1' := substitute t1 s
    let t2' := substitute t2 s
    if t1' = t2' then some (.ok s)
    else if t1'.is_variable then
      match subLookup s t1'.name with
      | some b => unify f b t2' s
      | none => some (.ok (subSet s t1'.name t2'))
    else if t2'.is_variable then
      match subLookup s t2'.name with
      | some b => unify f t1' b s
      | none => some (.ok (subSet s t2'.name t1'))
    else if t1'.name = t2'.name ∧ t1'.args.length = t2'.args.length then
      unifyArgs f t1'.args t2'.args s
    else some (.fail s)
termination_by (fuel, 0)
/-- The pairwise `zip` loop over compound arguments, threading the
substitution left to right and aborting the whole call on the first
failure. -/
def unifyArgs (fuel : Nat) (args1 args2 : List Arg) (s : Subst) : Option URes :=
  match args1, args2 with
  | [], _ => some (.ok s)
  | _, [] => some (.ok s)
  | a1 :: r1, a2 :: r2 =>
    match unify fuel (argToTerm a1) (argToTerm a2) s with
    | none => none
    | some (.fail s') => some (.fail s')
    | some (.ok s') => unifyArgs fuel r1 r2 s'
termination_by (fuel, args1.length + 1)
end

end Unification

/-- `f"{name}_{suffix}"` used by `_rename_variables` (Python `str(int)` is
decimal, i.e. `Nat.repr`). -/
def renameName (n : String) (suffix : Nat) : String := n ++ "_" ++ Nat.repr suffix

mutual
/-- The `rename_term` worker of `_rename_variables`.  A variable-classified
term is rebuilt as a bare renamed variable (its argument list, if any, is
dropped); otherwise string arguments matching the variable convention are
renamed in place and `Term` arguments are renamed recursively.  The
`var_mapping` dictionary of the source memoises `name ↦ f"{name}_{suffix}"`,
a function of the key alone, so it is modelled by direct application. -/
def renameTerm (t : Term) (suffix : Nat) : Term :=
  match t with
  | .mk n args =>
    if pyIsupper n then .mk (renameName n suffix) []
    else
      match args with
      | [] => .mk n []
      | a :: rest => .mk n (renameArgs (a :: rest) suffix)
/-- Argument loop of `rename_term`. -/
def renameArgs (args : List Arg) (suffix : Nat) : List Arg :=
  match args with
  | [] => []
  | .t v :: rest => .t (renameTerm v suffix) :: renameArgs rest suffix
  | .s v :: rest =>
      (if pyIsupper v then Arg.s (renameName v suffix) else Arg.s v) :: renameArgs rest suffix
end

/-- `BackwardsChainingEngine._rename_variables`: rename every variable of
the clause with the depth suffix. -/
def rename_variables (c : Clause) (suffix : Nat) : Clause :=
  ⟨renameTerm c.head suffix, c.body.map (fun t => renameTerm t suffix)⟩

/-- The mutable engine state of `BackwardsChainingEngine`: the trace log and
the call-stack guard, threaded explicitly. -/
structure EngineState where
  trace : List String
  call_stack : List (Term × List (String × Term))
deriving DecidableEq

/-- `"  " * depth`. -/
def indentOf : Nat → String
  | 0 => ""
  | d + 1 => "  " ++ indentOf d

mutual
/-- `BackwardsChainingEngine.prove`, fuel-indexed (the Python recursion
through rule bodies is unbounded; `none` means the search did not complete
within `fuel` nested `prove` calls).  `clauses` is the engine's knowledge
base clause list, the only part of the knowledge base the search reads. -/
def prove (fuel : Nat) (clauses : List Clause) (goal : Term) (substitution : Subst)
    (depth : Nat) (st : EngineState) : Option (List Subst × EngineState) :=
  match fuel with
  | 0 => none
  | f + 1 =>
    let indent := indentOf depth
    let goal_str := (Unification.substitute goal substitution).render
    let st1 : EngineState := ⟨st.trace ++ [indent ++ "Trying to prove: " ++ goal_str], st.call_stack⟩
    let snap := (goal, sortSub substitution)
    if snap ∈ st1.call_stack then
      some ([], ⟨st1.trace ++ [indent ++ "✗ Infinite recursion detected"], st1.call_stack⟩)
    else
      let st2 : EngineState := ⟨st1.trace, st1.call_stack ++ [snap]⟩
      match proveClauses f clauses (matchingClauses clauses goal) goal goal_str substitution depth st2 with
      | none => none
      | some (solutions, st3) =>
        let st4 : EngineState := ⟨st3.trace, st3.call_stack.dropLast⟩
        if solutions.length == 0 then
          some (solutions, ⟨st4.trace ++ [indentOf depth ++ "✗ Cannot prove: " ++ goal_str], st4.call_stack⟩)
        else some (solutions, st4)
termination_by (fuel, 0, 0, 0)
/-- The `for clause in matching_clauses` loop of `prove`: rename, unify
with the goal against a private copy of the substitution, then either
record a fact solution or descend into the rule body. -/
def proveClauses (fuel : Nat) (clauses cands : List Clause) (goal : Term) (goal_str : String)
    (substitution : Subst) (depth : Nat) (st : EngineState) : Option (List Subst × EngineState) :=
  match cands with
  | [] => some ([], st)
  | c :: rest =>
    let renamed := rename_variables c depth
    match Unification.unify fuel goal renamed.head substitution with
    | none => none
    | some (.fail _) => proveClauses fuel clauses rest goal goal_str substitution depth st
    | some (.ok unified_sub) =>
      let st1 : EngineState := ⟨st.trace ++ [indentOf depth ++ "Unified with: " ++ renamed.render], st.call_stack⟩
      if renamed.body.length == 0 then
        let st2 : EngineState := ⟨st1.trace ++ [indentOf depth ++ "✓ Fact proven: " ++ goal_str], st1.call_stack⟩
        match proveClauses fuel clauses rest goal goal_str substitution depth st2 with
        | none => none
        | some (solutions, st3) => some (unified_sub :: solutions, st3)
      else
        let st2 : EngineState := ⟨st1.trace ++ [indentOf depth ++ "Proving body conditions..."], st1.call_stack⟩
        match prove_body fuel clauses renamed.body unified_sub (depth + 1) st2 with
        | none => none
        | some (body_solutions, st3) =>
          match proveClauses fuel clauses rest goal goal_str substitution depth st3 with
          | none => none
          | some (solutions, st4) => some (body_solutions ++ solutions, st4)
termination_by (fuel, 2, cands.length, 0)
/-- `BackwardsChainingEngine._prove_body`: prove the first condition, then
the remaining ones under each resulting substitution. -/
def prove_body (fuel : Nat) (clauses : List Clause) (body_conditions : List Term)
    (substitution : Subst) (depth : Nat) (st : EngineState) : Option (List Subst × EngineState) :=
  match body_conditions with
  | [] => some ([substitution], st)
  | first :: rest =>
    match prove fuel clauses first substitution depth st with
    | none => none
    | some (first_solutions, st1) => proveBodyLoop fuel clauses rest first_solutions depth st1
termination_by (fuel, 1, body_conditions.length, 0)
/-- The `for solution in first_solutions` loop of `_prove_body`. -/
def proveBodyLoop (fuel : Nat) (clauses : List Clause) (rest : List Term)
    (sols : List Subst) (depth : Nat) (st : EngineState) : Option (List Subst × EngineState) :=
  match sols with
  | [] => some ([], st)
  | s :: more =>
    match prove_body fuel clauses rest s depth st with
    | none => none
    | some (remaining_solutions, st1) =>
      match proveBodyLoop fuel clauses rest more depth st1 with
      | none => none
      | some (solutions, st2) => some (remaining_solutions ++ solutions, st2)
termination_by (fuel, 1, rest.length, sols.length + 1)
end

/-- `BackwardsChainingEngine.query`: reset the trace and the call-stack
guard, build the goal term from the predicate and raw string arguments,
prove it from the empty substitution at depth 0, and return the solutions
together with the trace.  The engine state the call started from (`st`) is
discarded by the reset, and the state after the call is the state `prove`
left behind. -/
def query (kb : KnowledgeBase) (fuel : Nat) (predicate : String) (args : List String)
    (st : EngineState) : Option ((List Subst × List String) × EngineState) :=
  match prove fuel kb.clauses (Term.mk predicate (args.map Arg.s)) [] 0 ⟨[], []⟩ with
  | none => none
  | some (solutions, st') => some ((solutions, st'.trace), st')

/-! ### Basic lemmas about substitutions -/

theorem subLookup_append_none {s1 : Subst} {n : String} (h : subLookup s1 n = none) (s2 : Subst) :
    subLookup (s1 ++ s2) n = subLookup s2 n := by
  induction s1 with
  | nil => rfl
  | cons p rest ih =>
    obtain ⟨k, v⟩ := p
    simp only [subLookup] at h ⊢
    by_cases hk : k = n
    · simp [hk] at h
    · simp only [if_neg hk] at h ⊢
      exact ih h

theorem subLookup_append_last {s : Subst} {n : String} (h : subLookup s n = none) (t : Term) :
    subLookup (s ++ [(n, t)]) n = some t := by
  rw [subLookup_append_none h]
  simp [subLookup]

/-- When the key is absent, a Python dict assignment appends the new pair. -/
theorem subSet_eq_append {s : Subst} {n : String} (h : subLookup s n = none) (t : Term) :
    subSet s n t = s ++ [(n, t)] := by
  induction s with
  | nil => rfl
  | cons p rest ih =>
    obtain ⟨k, v⟩ := p
    simp only [subLookup] at h
    by_cases hk : k = n
    · simp [hk] at h
    · simp only [subSet, if_neg hk, List.cons_append, List.cons.injEq, true_and]
      exact ih (by simpa [if_neg hk] using h)

theorem insertSorted_length (p : String × Term) (l : List (String × Term)) :
    (insertSorted p l).length = l.length + 1 := by
  induction l with
  | nil => rfl
  | cons q rest ih =>
    simp only [insertSorted]
    split
    · simp
    · simp [ih]

theorem sortSub_length (s : Subst) : (sortSub s).length = s.length := by
  induction s with
  | nil => rfl
  | cons p rest ih => simp [sortSub, List.foldr] at ih ⊢; rw [insertSorted_length, ih]

/-! ### `substitute` on the empty substitution is the identity -/

theorem Unification.substVar_nil (n : String) : Unification.substVar [] n = none := by
  simp [Unification.substVar, subLookup]

mutual
theorem Unification.substitute_nil : ∀ t : Term, Unification.substitute t [] = t
  | .mk n args => by
    rw [Unification.substitute, Unification.substVar_nil, Option.getD_none]
    exact congrArg (Term.mk n) (Unification.substituteArgs_nil args)
theorem Unification.substituteArgs_nil : ∀ args : List Arg, Unification.substituteArgs args [] = args
  | [] => by rw [Unification.substituteArgs]
  | .t v :: rest => by
    rw [Unification.substituteArgs]
    rw [Unification.substitute_nil v, Unification.substituteArgs_nil rest]
  | .s v :: rest => by
    rw [Unification.substituteArgs, Unification.substVar_nil]
    rw [Unification.substituteArgs_nil rest]
    rfl
end

/-! ### Unification only appends bindings for fresh names -/

theorem Unification.unifyArgs_state_extends {fuel : Nat}
    (hU : ∀ t1 t2 s r, Unification.unify fuel t1 t2 s = some r → ∃ u, r.state = s ++ u) :
    ∀ args1 args2 s r, Unification.unifyArgs fuel args1 args2 s = some r → ∃ u, r.state = s ++ u := by
  intro args1
  induction args1 with
  | nil =>
    intro args2 s r h
    rw [Unification.unifyArgs] at h
    cases h
    exact ⟨[], by simp [Unification.URes.state]⟩
  | cons a1 r1 ih =>
    intro args2 s r h
    cases args2 with
    | nil =>
      simp only [Unification.unifyArgs] at h
      cases h
      exact ⟨[], by simp [Unification.URes.state]⟩
    | cons a2 r2 =>
      rw [Unification.unifyArgs] at h
      cases h1 : Unification.unify fuel (Unification.argToTerm a1) (Unification.argToTerm a2) s with
      | none => rw [h1] at h; cases h
      | some u1 =>
        rw [h1] at h
        cases u1 with
        | fail s' =>
          cases h
          exact hU _ _ _ _ h1
        | ok s' =>
          obtain ⟨e1, he1⟩ := hU _ _ _ _ h1
          obtain ⟨e2, he2⟩ := ih r2 s' r h
          exact ⟨e1 ++ e2, by rw [he2, Unification.URes.state] at *; rw [he1, List.append_assoc]⟩

theorem Unification.unify_state_extends :
    ∀ fuel t1 t2 s r, Unification.unify fuel t1 t2 s = some r → ∃ u, r.state = s ++ u := by
  intro fuel
  induction fuel with
  | zero => intro t1 t2 s r h; rw [Unification.unify] at h; cases h
  | succ f ih =>
    intro t1 t2 s r h
    simp only [Unification.unify] at h
    split at h
    · cases h; exact ⟨[], by simp [Unification.URes.state]⟩
    · split at h
      · split at h
        · exact ih _ _ _ _ h
        · cases h
          rename_i hvar hnone
          exact ⟨_, by rw [Unification.URes.state, subSet_eq_append hnone]⟩
      · split at h
        · split at h
          · exact ih _ _ _ _ h
          · cases h
            rename_i hnone
            exact ⟨_, by rw [Unification.URes.state, subSet_eq_append hnone]⟩
        · split at h
          · exact Unification.unifyArgs_state_extends ih _ _ _ _ h
          · cases h; exact ⟨[], by simp [Unification.URes.state]⟩

/-! ### The call-stack guard is restored by every completed call -/

theorem proveBodyLoop_stack {fuel : Nat} {clauses : List Clause} {rest : List Term} {depth : Nat}
    (hPB : ∀ s st r, prove_body fuel clauses rest s depth st = some r →
      r.2.call_stack = st.call_stack) :
    ∀ sols st r, proveBodyLoop fuel clauses rest sols depth st = some r →
      r.2.call_stack = st.call_stack := by
  intro sols
  induction sols with
  | nil =>
    intro st r h
    simp only [proveBodyLoop] at h
    cases h
    rfl
  | cons s more ih =>
    intro st r h
    simp only [proveBodyLoop] at h
    cases h1 : prove_body fuel clauses rest s depth st with
    | none => rw [h1] at h; cases h
    | some r1 =>
      rw [h1] at h
      cases h2 : proveBodyLoop fuel clauses rest more depth r1.2 with
      | none => simp [h2] at h
      | some r2 =>
        simp only [h2] at h
        cases h
        have e2 := ih r1.2 r2 h2
        rw [e2, hPB s st r1 h1]

theorem prove_body_stack {fuel : Nat} {clauses : List Clause}
    (hP : ∀ goal s d st r, prove fuel clauses goal s d st = some r →
      r.2.call_stack = st.call_stack) :
    ∀ conds s d st r, prove_body fuel clauses conds s d st = some r →
      r.2.call_stack = st.call_stack := by
  intro conds
  induction conds with
  | nil =>
    intro s d st r h
    simp only [prove_body] at h
    cases h
    rfl
  | cons first rest ih =>
    intro s d st r h
    simp only [prove_body] at h
    cases h1 : prove fuel clauses first s d st with
    | none => rw [h1] at h; cases h
    | some r1 =>
      rw [h1] at h
      have := proveBodyLoop_stack (fun s' st' r' hh => ih s' d st' r' hh) r1.1 r1.2 r h
      rw [this, hP first s d st r1 h1]

theorem proveClauses_stack {fuel : Nat} {clauses : List Clause}
    (hP : ∀ goal s d st r, prove fuel clauses goal s d st = some r →
      r.2.call_stack = st.call_stack) :
    ∀ cands goal goal_str s d st r,
      proveClauses fuel clauses cands goal goal_str s d st = some r →
      r.2.call_stack = st.call_stack := by
  intro cands
  induction cands with
  | nil =>
    intro goal goal_str s d st r h
    simp only [proveClauses] at h
    cases h
    rfl
  | cons c rest ih =>
    intro goal goal_str s d st r h
    simp only [proveClauses] at h
    cases h1 : Unification.unify fuel goal (rename_variables c d).head s with
    | none => rw [h1] at h; cases h
    | some u =>
      rw [h1] at h
      cases u with
      | fail s' => exact ih goal goal_str s d st r h
      | ok us =>
        simp only at h
        split at h
        · -- fact branch
          cases h2 : proveClauses fuel clauses rest goal goal_str s d
              ⟨(st.trace ++ [indentOf d ++ "Unified with: " ++ (rename_variables c d).render]) ++
                [indentOf d ++ "✓ Fact proven: " ++ goal_str], st.call_stack⟩ with
          | none => rw [h2] at h; cases h
          | some r3 =>
            rw [h2] at h
            cases h
            have e := ih _ _ _ _ _ _ h2
            exact e
        · -- rule branch
          cases h2 : prove_body fuel clauses (rename_variables c d).body us (d + 1)
              ⟨(st.trace ++ [indentOf d ++ "Unified with: " ++ (rename_variables c d).render]) ++
                [indentOf d ++ "Proving body conditions..."], st.call_stack⟩ with
          | none => rw [h2] at h; cases h
          | some r2 =>
            rw [h2] at h
            cases h3 : proveClauses fuel clauses rest goal goal_str s d r2.2 with
            | none => simp [h3] at h
            | some r3 =>
              simp only [h3] at h
              cases h
              have e3 := ih goal goal_str s d r2.2 r3 h3
              have e2 := prove_body_stack hP (rename_variables c d).body us (d + 1) _ r2 h2
              rw [e3, e2]

theorem prove_stack :
    ∀ fuel clauses goal s d st r, prove fuel clauses goal s d st = some r →
      r.2.call_stack = st.call_stack := by
  intro fuel
  induction fuel with
  | zero => intro clauses goal s d st r h; simp only [prove] at h; cases h
  | succ f ih =>
    intro clauses goal s d st r h
    simp only [prove] at h
    split at h
    · cases h; rfl
    · cases h1 : proveClauses f clauses (matchingClauses clauses goal) goal
          (Unification.substitute goal s).render s d
          ⟨st.trace ++ [indentOf d ++ "Trying to prove: " ++
            (Unification.substitute goal s).render], st.call_stack ++ [(goal, sortSub s)]⟩ with
      | none => rw [h1] at h; cases h
      | some r3 =>
        obtain ⟨sols3, st3⟩ := r3
        rw [h1] at h
        dsimp only at h
        have e3 : st3.call_stack = st.call_stack ++ [(goal, sortSub s)] :=
          proveClauses_stack (fun g s' d' st' r' hh => ih clauses g s' d' st' r' hh)
            (matchingClauses clauses goal) goal _ s d _ (sols3, st3) h1
        have hr : r.2.call_stack = st3.call_stack.dropLast := by
          by_cases hb : (sols3.length == 0) = true
          · rw [if_pos hb] at h; cases h; rfl
          · rw [if_neg hb] at h; cases h; rfl
        rw [hr, e3]
        simp

/-! ### Solutions only extend the substitution they started from -/

theorem proveBodyLoop_extends {fuel : Nat} {clauses : List Clause} {rest : List Term} {depth : Nat}
    (hPB : ∀ s st r, prove_body fuel clauses rest s depth st = some r →
      ∀ s' ∈ r.1, ∃ u, s' = s ++ u) :
    ∀ sols st r, proveBodyLoop fuel clauses rest sols depth st = some r →
      ∀ s' ∈ r.1, ∃ s0 ∈ sols, ∃ u, s' = s0 ++ u := by
  intro sols
  induction sols with
  | nil =>
    intro st r h
    simp only [proveBodyLoop] at h
    cases h
    intro s' hs'
    simp at hs'
  | cons s more ih =>
    intro st r h
    simp only [proveBodyLoop] at h
    cases h1 : prove_body fuel clauses rest s depth st with
    | none => rw [h1] at h; cases h
    | some r1 =>
      rw [h1] at h
      cases h2 : proveBodyLoop fuel clauses rest more depth r1.2 with
      | none => simp [h2] at h
      | some r2 =>
        simp only [h2] at h
        cases h
        intro s' hs'
        rcases List.mem_append.mp hs' with hm | hm
        · obtain ⟨u, hu⟩ := hPB s st r1 h1 s' hm
          exact ⟨s, List.mem_cons_self s more, u, hu⟩
        · obtain ⟨s0, hs0, u, hu⟩ := ih r1.2 r2 h2 s' hm
          exact ⟨s0, List.mem_cons_of_mem s hs0, u, hu⟩

theorem prove_body_extends {fuel : Nat} {clauses : List Clause}
    (hP : ∀ goal s d st r, prove fuel clauses goal s d st = some r →
      ∀ s' ∈ r.1, ∃ u, s' = s ++ u) :
    ∀ conds s d st r, prove_body fuel clauses conds s d st = some r →
      ∀ s' ∈ r.1, ∃ u, s' = s ++ u := by
  intro conds
  induction conds with
  | nil =>
    intro s d st r h
    simp only [prove_body] at h
    cases h
    intro s' hs'
    simp at hs'
    exact ⟨[], by simp [hs']⟩
  | cons first rest ih =>
    intro s d st r h
    simp only [prove_body] at h
    cases h1 : prove fuel clauses first s d st with
    | none => rw [h1] at h; cases h
    | some r1 =>
      rw [h1] at h
      intro s' hs'
      obtain ⟨s0, hs0, u, hu⟩ :=
        proveBodyLoop_extends (fun s'' st'' r'' hh => ih s'' d st'' r'' hh) r1.1 r1.2 r h s' hs'
      obtain ⟨u0, hu0⟩ := hP first s d st r1 h1 s0 hs0
      exact ⟨u0 ++ u, by rw [hu, hu0, List.append_assoc]⟩

theorem proveClauses_extends {fuel : Nat} {clauses : List Clause}
    (hP : ∀ goal s d st r, prove fuel clauses goal s d st = some r →
      ∀ s' ∈ r.1, ∃ u, s' = s ++ u) :
    ∀ cands goal goal_str s d st r,
      proveClauses fuel clauses cands goal goal_str s d st = some r →
      ∀ s' ∈ r.1, ∃ u, s' = s ++ u := by
  intro cands
  induction cands with
  | nil =>
    intro goal goal_str s d st r h
    simp only [proveClauses] at h
    cases h
    intro s' hs'
    simp at hs'
  | cons c rest ih =>
    intro goal goal_str s d st r h
    simp only [proveClauses] at h
    cases h1 : Unification.unify fuel goal (rename_variables c d).head s with
    | none => rw [h1] at h; cases h
    | some u =>
      rw [h1] at h
      cases u with
      | fail s' => exact ih goal goal_str s d st r h
      | ok us =>
        simp only at h
        have hus : ∃ u, us = s ++ u := Unification.unify_state_extends fuel _ _ _ _ h1
        split at h
        · -- fact branch
          cases h2 : proveClauses fuel clauses rest goal goal_str s d
              ⟨(st.trace ++ [indentOf d ++ "Unified with: " ++ (rename_variables c d).render]) ++
                [indentOf d ++ "✓ Fact proven: " ++ goal_str], st.call_stack⟩ with
          | none => rw [h2] at h; cases h
          | some r3 =>
            rw [h2] at h
            cases h
            intro s' hs'
            rcases List.mem_cons.mp hs' with hm | hm
            · exact hm ▸ hus
            · exact ih _ _ _ _ _ _ h2 s' hm
        · -- rule branch
          cases h2 : prove_body fuel clauses (rename_variables c d).body us (d + 1)
              ⟨(st.trace ++ [indentOf d ++ "Unified with: " ++ (rename_variables c d).render]) ++
                [indentOf d ++ "Proving body conditions..."], st.call_stack⟩ with
          | none => rw [h2] at h; cases h
          | some r2 =>
            rw [h2] at h
            cases h3 : proveClauses fuel clauses rest goal goal_str s d r2.2 with
            | none => simp [h3] at h
            | some r3 =>
              simp only [h3] at h
              cases h
              intro s' hs'
              rcases List.mem_append.mp hs' with hm | hm
              · obtain ⟨u2, hu2⟩ := prove_body_extends hP _ us (d + 1) _ r2 h2 s' hm
                obtain ⟨u1, hu1⟩ := hus
                exact ⟨u1 ++ u2, by rw [hu2, hu1, List.append_assoc]⟩
              · exact ih goal goal_str s d r2.2 r3 h3 s' hm

theorem prove_extends :
    ∀ fuel clauses goal s d st r, prove fuel clauses goal s d st = some r →
      ∀ s' ∈ r.1, ∃ u, s' = s ++ u := by
  intro fuel
  induction fuel with
  | zero => intro clauses goal s d st r h; simp only [prove] at h; cases h
  | succ f ih =>
    intro clauses goal s d st r h
    simp only [prove] at h
    split at h
    · cases h
      intro s' hs'
      simp at hs'
    · cases h1 : proveClauses f clauses (matchingClauses clauses goal) goal
          (Unification.substitute goal s).render s d
          ⟨st.trace ++ [indentOf d ++ "Trying to prove: " ++
            (Unification.substitute goal s).render], st.call_stack ++ [(goal, sortSub s)]⟩ with
      | none => rw [h1] at h; cases h
      | some r3 =>
        obtain ⟨sols3, st3⟩ := r3
        rw [h1] at h
        dsimp only at h
        have hsols : r.1 = sols3 := by
          by_cases hb : (sols3.length == 0) = true
          · rw [if_pos hb] at h; cases h; rfl
          · rw [if_neg hb] at h; cases h; rfl
        rw [hsols]
        exact proveClauses_extends (fun g s' d' st' r' hh => ih clauses g s' d' st' r' hh)
          (matchingClauses clauses goal) goal _ s d _ (sols3, st3) h1

/-! ### Decimal representations (`Nat.repr`): digit characters, injectivity -/

theorem toDigitsCore_append :
    ∀ f n acc, Nat.toDigitsCore 10 f n acc = Nat.toDigitsCore 10 f n [] ++ acc := by
  intro f
  induction f with
  | zero => intro n acc; simp [Nat.toDigitsCore]
  | succ f ih =>
    intro n acc
    simp only [Nat.toDigitsCore]
    by_cases h : n / 10 = 0
    · simp [h]
    · simp only [if_neg h]
      rw [ih (n / 10) [Nat.digitChar (n % 10)], ih (n / 10) (Nat.digitChar (n % 10) :: acc)]
      simp

/-- Decimal parsing, a left inverse of `Nat.toDigits 10`. -/
def parseDigits (l : List Char) : Nat := l.foldl (fun a c => a * 10 + (c.toNat - 48)) 0

theorem parseDigits_concat (l : List Char) (c : Char) :
    parseDigits (l ++ [c]) = parseDigits l * 10 + (c.toNat - 48) := by
  simp [parseDigits, List.foldl_append]

theorem digitChar_toNat_sub : ∀ k < 10, (Nat.digitChar k).toNat - 48 = k := by decide

theorem parse_toDigitsCore : ∀ f n, n < 10 ^ f → parseDigits (Nat.toDigitsCore 10 f n []) = n := by
  intro f
  induction f with
  | zero =>
    intro n hn
    interval_cases n
    rfl
  | succ f ih =>
    intro n hn
    simp only [Nat.toDigitsCore]
    by_cases h : n / 10 = 0
    · simp only [if_pos h]
      have hlt : n < 10 := by omega
      have : parseDigits [Nat.digitChar (n % 10)] = n % 10 := by
        show 0 * 10 + ((Nat.digitChar (n % 10)).toNat - 48) = n % 10
        rw [digitChar_toNat_sub (n % 10) (Nat.mod_lt n (by norm_num))]
        omega
      rw [this]
      omega
    · simp only [if_neg h]
      rw [toDigitsCore_append, parseDigits_concat]
      have hdiv : n / 10 < 10 ^ f := by
        rw [Nat.div_lt_iff_lt_mul (by norm_num)]
        calc n < 10 ^ (f + 1) := hn
        _ = 10 ^ f * 10 := by ring
      rw [ih (n / 10) hdiv, digitChar_toNat_sub (n % 10) (Nat.mod_lt n (by norm_num))]
      omega

theorem parse_repr (n : Nat) : parseDigits (Nat.repr n).data = n := by
  show parseDigits (Nat.toDigits 10 n).asString.data = n
  show parseDigits (Nat.toDigits 10 n) = n
  exact parse_toDigitsCore (n + 1) n
    (lt_of_lt_of_le (Nat.lt_pow_self (by norm_num) n)
      (Nat.pow_le_pow_right (by norm_num) (Nat.le_succ n)))

theorem repr_inj {a b : Nat} (h : Nat.repr a = Nat.repr b) : a = b := by
  have := congrArg (fun s => parseDigits s.data) h
  simpa [parse_repr] using this

theorem digitChar_not_cased : ∀ k < 10, pyCased (Nat.digitChar k) = false := by decide

theorem toDigitsCore_not_cased :
    ∀ f n acc, (∀ c ∈ acc, pyCased c = false) →
      ∀ c ∈ Nat.toDigitsCore 10 f n acc, pyCased c = false := by
  intro f
  induction f with
  | zero => intro n acc hacc; simpa [Nat.toDigitsCore] using hacc
  | succ f ih =>
    intro n acc hacc
    simp only [Nat.toDigitsCore]
    by_cases h : n / 10 = 0
    · simp only [if_pos h]
      intro c hc
      rcases List.mem_cons.mp hc with rfl | hm
      · exact digitChar_not_cased (n % 10) (Nat.mod_lt n (by norm_num))
      · exact hacc c hm
    · simp only [if_neg h]
      refine ih (n / 10) _ ?_
      intro c hc
      rcases List.mem_cons.mp hc with rfl | hm
      · exact digitChar_not_cased (n % 10) (Nat.mod_lt n (by norm_num))
      · exact hacc c hm

theorem repr_not_cased : ∀ c ∈ (Nat.repr n).data, pyCased c = false := by
  intro c hc
  exact toDigitsCore_not_cased (n + 1) n [] (by simp) c hc

/-! ### The `loop(X) :- loop(X)` knowledge base -/

/-- The knowledge base holding exactly the rule `loop(X) :- loop(X)`. -/
def loopKB : KnowledgeBase := KnowledgeBase.empty.add_rule "loop" ["X"] [("loop", ["X"])]

/-- The clause `loop(X) :- loop(X)`. -/
def loopRule : Clause := ⟨.mk "loop" [.s "X"], [.mk "loop" [.s "X"]]⟩

theorem loopKB_clauses : loopKB.clauses = [loopRule] := rfl

def aTerm : Term := .mk "a" []

/-- The renamed variable name `X_<j>` produced at recursion depth `j`. -/
def xname (j : Nat) : String := renameName "X" j

/-- The goal proved at depth `d` of the runaway recursion: `loop(a)` at the
top, `loop(X_<d-1>)` below. -/
def loopGoal : Nat → Term
  | 0 => .mk "loop" [.s "a"]
  | j + 1 => .mk "loop" [.s (xname j)]

/-- The head (and sole body condition) of the clause renamed at depth `d`. -/
def loopHead (d : Nat) : Term := .mk "loop" [.s (xname d)]

/-- The substitution in force at depth `d`: `X_0 ↦ a, ..., X_<d-1> ↦ a`. -/
def loopSub : Nat → Subst
  | 0 => []
  | d + 1 => loopSub d ++ [(xname d, aTerm)]

theorem xname_data (j : Nat) : (xname j).data = 'X' :: '_' :: (Nat.repr j).data := rfl

theorem pyIsupper_xname (j : Nat) : pyIsupper (xname j) = true := by
  have h4 : ∀ c ∈ (Nat.repr j).data, (!c.isLower) = true := by
    intro c hc
    have hnc := repr_not_cased (n := j) c hc
    simp only [pyCased, Bool.or_eq_false_iff] at hnc
    simp [hnc.1]
  simp only [pyIsupper, xname_data, List.any_cons, List.all_cons]
  simp [List.all_eq_true.mpr h4, pyCased]

theorem xname_inj {j k : Nat} (h : xname j = xname k) : j = k := by
  have hd := congrArg String.data h
  rw [xname_data, xname_data] at hd
  have hdd : (Nat.repr j).data = (Nat.repr k).data := by
    injection hd with _ hd1
    injection hd1
  have hrepr : Nat.repr j = Nat.repr k := by
    cases hpj : Nat.repr j
    cases hpk : Nat.repr k
    rw [hpj, hpk] at hdd
    exact congrArg String.mk hdd
  exact repr_inj hrepr

theorem xname_ne_a (j : Nat) : xname j ≠ "a" := by
  intro h
  have := pyIsupper_xname j
  rw [h] at this
  simp [pyIsupper, pyCased] at this

theorem lookup_loopSub_ge : ∀ d j, d ≤ j → subLookup (loopSub d) (xname j) = none := by
  intro d
  induction d with
  | zero => intro j _; rfl
  | succ d ih =>
    intro j hj
    show subLookup (loopSub d ++ [(xname d, aTerm)]) (xname j) = none
    rw [subLookup_append_none (ih j (by omega))]
    have hne : xname d ≠ xname j := fun he => by
      have := xname_inj he
      omega
    simp [subLookup, hne]

theorem lookup_loopSub_last (d : Nat) : subLookup (loopSub (d + 1)) (xname d) = some aTerm := by
  show subLookup (loopSub d ++ [(xname d, aTerm)]) (xname d) = some aTerm
  exact subLookup_append_last (lookup_loopSub_ge d d le_rfl) aTerm

theorem loopSub_length : ∀ d, (loopSub d).length = d := by
  intro d
  induction d with
  | zero => rfl
  | succ d ih => show (loopSub d ++ [(xname d, aTerm)]).length = d + 1; simp [ih]

theorem pyIsupper_loop_str : pyIsupper "loop" = false := by decide

theorem pyIsupper_a_str : pyIsupper "a" = false := by decide

theorem pyIsupper_X_str : pyIsupper "X" = true := by decide

theorem substVar_loop_name (s : Subst) : Unification.substVar s "loop" = none := by
  simp [Unification.substVar, pyIsupper_loop_str]

theorem subst_loopHead {d d' : Nat} (h : d ≤ d') :
    Unification.substitute (loopHead d') (loopSub d) = loopHead d' := by
  show Unification.substitute (.mk "loop" [.s (xname d')]) (loopSub d) = _
  rw [Unification.substitute, substVar_loop_name, Option.getD_none]
  rw [Unification.substituteArgs]
  have hv : Unification.substVar (loopSub d) (xname d') = none := by
    simp [Unification.substVar, pyIsupper_xname, lookup_loopSub_ge d d' h]
  rw [hv, Unification.substituteArgs]
  rfl

/-- The single argument of the substituted goal at depth `d`: the raw
string `"a"` at the top, the bound term `a` below. -/
def loopArg : Nat → Arg
  | 0 => .s "a"
  | _ + 1 => .t aTerm

theorem subst_loopGoal : ∀ d, Unification.substitute (loopGoal d) (loopSub d) = .mk "loop" [loopArg d] := by
  intro d
  cases d with
  | zero => exact Unification.substitute_nil _
  | succ d =>
    show Unification.substitute (.mk "loop" [.s (xname d)]) (loopSub (d + 1)) = .mk "loop" [.t aTerm]
    rw [Unification.substitute, substVar_loop_name, Option.getD_none]
    rw [Unification.substituteArgs]
    have hv : Unification.substVar (loopSub (d + 1)) (xname d) = some aTerm := by
      simp [Unification.substVar, pyIsupper_xname, lookup_loopSub_last d]
    rw [hv, Unification.substituteArgs]
    rfl

theorem argToTerm_loopArg : ∀ d, Unification.argToTerm (loopArg d) = aTerm := by
  intro d
  cases d <;> rfl

theorem loopArg_ne (d : Nat) : loopArg d ≠ Arg.s (xname d) := by
  cases d with
  | zero =>
    intro h
    exact xname_ne_a 0 (by injection h with h1; exact h1.symm)
  | succ d => intro h; cases h

theorem subst_aTerm (s : Subst) : Unification.substitute aTerm s = aTerm := by
  show Unification.substitute (.mk "a" []) s = aTerm
  rw [Unification.substitute]
  simp [Unification.substVar, pyIsupper_a_str, Unification.substituteArgs, aTerm]

theorem subst_xnameTerm (d : Nat) :
    Unification.substitute (.mk (xname d) []) (loopSub d) = .mk (xname d) [] := by
  have hv : Unification.substVar (loopSub d) (xname d) = none := by
    simp [Unification.substVar, lookup_loopSub_ge d d le_rfl]
  simp only [Unification.substitute, Unification.substituteArgs, hv, Option.getD_none]

theorem aTerm_ne_xnameTerm (d : Nat) : aTerm ≠ Term.mk (xname d) [] := by
  intro h
  exact xname_ne_a d (by injection h with h1 _; exact h1.symm)

theorem unify_inner (g d : Nat) :
    Unification.unify (g + 1) aTerm (.mk (xname d) []) (loopSub d) = some (.ok (loopSub (d + 1))) := by
  simp only [Unification.unify, subst_aTerm, subst_xnameTerm]
  rw [if_neg (aTerm_ne_xnameTerm d)]
  have hv1 : aTerm.is_variable = false := by decide
  rw [if_neg (by simp [hv1])]
  have hv2 : (Term.mk (xname d) []).is_variable = true := by
    simp [Term.is_variable, Term.name, pyIsupper_xname]
  rw [if_pos hv2]
  rw [show (Term.mk (xname d) []).name = xname d from rfl]
  rw [lookup_loopSub_ge d d le_rfl]
  rw [subSet_eq_append (lookup_loopSub_ge d d le_rfl) aTerm]
  rfl

theorem substGoal_ne_head (d : Nat) : Term.mk "loop" [loopArg d] ≠ loopHead d := by
  intro h
  injection h with _ h2
  injection h2 with h3
  exact loopArg_ne d h3

theorem loopvar_false : (Term.mk "loop" [loopArg d]).is_variable = false := by
  simp [Term.is_variable, Term.name, pyIsupper_loop_str]

theorem loopHead_var_false (d : Nat) : (loopHead d).is_variable = false := by
  simp [loopHead, Term.is_variable, Term.name, pyIsupper_loop_str]

theorem unify_loop_ok (g d : Nat) :
    Unification.unify (g + 2) (loopGoal d) (loopHead d) (loopSub d) = some (.ok (loopSub (d + 1))) := by
  simp only [Unification.unify, subst_loopGoal d, subst_loopHead (le_refl d)]
  rw [if_neg (substGoal_ne_head d)]
  rw [if_neg (by simp [loopvar_false])]
  rw [if_neg (by simp [loopHead_var_false])]
  rw [if_pos (by exact ⟨rfl, rfl⟩)]
  show Unification.unifyArgs (g + 1) [loopArg d] [.s (xname d)] (loopSub d) = _
  simp only [Unification.unifyArgs, argToTerm_loopArg]
  rw [show Unification.argToTerm (Arg.s (xname d)) = .mk (xname d) [] from rfl]
  rw [unify_inner g d]

theorem unify_loop_one (d : Nat) :
    Unification.unify 1 (loopGoal d) (loopHead d) (loopSub d) = none := by
  simp only [Unification.unify, subst_loopGoal d, subst_loopHead (le_refl d)]
  rw [if_neg (substGoal_ne_head d)]
  rw [if_neg (by simp [loopvar_false])]
  rw [if_neg (by simp [loopHead_var_false])]
  rw [if_pos (by exact ⟨rfl, rfl⟩)]
  show Unification.unifyArgs 0 [loopArg d] [.s (xname d)] (loopSub d) = _
  simp [Unification.unifyArgs, Unification.unify]

theorem matching_loop (d : Nat) : matchingClauses loopKB.clauses (loopGoal d) = [loopRule] := by
  cases d <;> rfl

theorem rename_loop (d : Nat) : rename_variables loopRule d = ⟨loopHead d, [loopHead d]⟩ := rfl

theorem snap_not_mem {d : Nat} {st : EngineState}
    (hst : ∀ e ∈ st.call_stack, e.2.length < d) :
    (loopGoal d, sortSub (loopSub d)) ∉ st.call_stack := by
  intro hmem
  have := hst _ hmem
  simp only [sortSub_length, loopSub_length] at this
  omega

theorem prove_loop_none :
    ∀ fuel d st, (∀ e ∈ st.call_stack, e.2.length < d) →
      prove fuel loopKB.clauses (loopGoal d) (loopSub d) d st = none := by
  intro fuel
  induction fuel with
  | zero => intro d st _; simp [prove]
  | succ f ih =>
    intro d st hst
    simp only [prove]
    rw [if_neg (by simpa using snap_not_mem hst)]
    rw [matching_loop d]
    simp only [proveClauses, rename_loop d]
    match f with
    | 0 =>
      have h0 : Unification.unify 0 (loopGoal d) (loopHead d) (loopSub d) = none := by
        simp [Unification.unify]
      rw [h0]
    | 1 => rw [unify_loop_one d]
    | g + 2 =>
      rw [unify_loop_ok g d]
      have hrec : ∀ tr : List String,
          prove (g + 2) loopKB.clauses (loopHead d) (loopSub (d + 1)) (d + 1)
            ⟨tr, st.call_stack ++ [(loopGoal d, sortSub (loopSub d))]⟩ = none := by
        intro tr
        have hc : ∀ e ∈ (st.call_stack ++ [(loopGoal d, sortSub (loopSub d))]),
            e.2.length < d + 1 := by
          intro e he
          rcases List.mem_append.mp he with hm | hm
          · exact lt_trans (hst e hm) (by omega)
          · rcases List.mem_singleton.mp hm with rfl
            simp only [sortSub_length, loopSub_length]
            omega
        have hx := ih (d + 1) ⟨tr, st.call_stack ++ [(loopGoal d, sortSub (loopSub d))]⟩ hc
        rwa [show loopGoal (d + 1) = loopHead d from rfl] at hx
      simp only [prove_body, hrec]
      simp

/-! ### Further helper lemmas for the claims -/

theorem subLookup_mem : ∀ {s : Subst} {n : String} {v : Term}, subLookup s n = some v → (n, v) ∈ s := by
  intro s
  induction s with
  | nil => intro n v h; cases h
  | cons p rest ih =>
    intro n v h
    obtain ⟨k, w⟩ := p
    simp only [subLookup] at h
    by_cases hk : k = n
    · rw [if_pos hk] at h
      cases h
      subst hk
      exact List.mem_cons_self _ _
    · rw [if_neg hk] at h
      exact List.mem_cons_of_mem _ (ih h)

theorem subLookup_append_some {s : Subst} {n : String} {v : Term}
    (h : subLookup s n = some v) (u : Subst) : subLookup (s ++ u) n = some v := by
  induction s with
  | nil => cases h
  | cons p rest ih =>
    obtain ⟨k, w⟩ := p
    simp only [subLookup] at h ⊢
    by_cases hk : k = n
    · rwa [if_pos hk] at h ⊢
    · rw [if_neg hk] at h ⊢
      exact ih h

theorem substVar_eq_some {s : Subst} {n : String} {v : Term}
    (h : Unification.substVar s n = some v) :
    pyIsupper n = true ∧ subLookup s n = some v := by
  unfold Unification.substVar at h
  by_cases hu : pyIsupper n = true
  · rw [if_pos hu] at h; exact ⟨hu, h⟩
  · rw [if_neg hu] at h; cases h

theorem substVar_eq_none {s : Subst} {n : String}
    (h : Unification.substVar s n = none) :
    (pyIsupper n && (subLookup s n).isSome) = false := by
  unfold Unification.substVar at h
  by_cases hu : pyIsupper n = true
  · rw [if_pos hu] at h
    simp [h]
  · simp only [Bool.not_eq_true] at hu
    simp [hu]

mutual
/-- A bound-variable occurrence inside a term: some variable-classified
subterm (or uppercase string argument) whose name is bound in `s`. -/
def Term.hasBound (s : Subst) : Term → Bool
  | .mk n args => (pyIsupper n && (subLookup s n).isSome) || Arg.hasBoundList s args
/-- `Term.hasBound` on one argument position. -/
def Arg.hasBound (s : Subst) : Arg → Bool
  | .s v => pyIsupper v && (subLookup s v).isSome
  | .t v => Term.hasBound s v
/-- `Term.hasBound` on an argument list. -/
def Arg.hasBoundList (s : Subst) : List Arg → Bool
  | [] => false
  | a :: rest => Arg.hasBound s a || Arg.hasBoundList s rest
end

mutual
theorem hasBound_substitute (s : Subst) (hs : ∀ p ∈ s, Term.hasBound s p.2 = false) :
    ∀ t : Term, Term.hasBound s (Unification.substitute t s) = false
  | .mk n args => by
    rw [Unification.substitute]
    cases hv : Unification.substVar s n with
    | some v =>
      rw [Option.getD_some]
      exact hs (n, v) (subLookup_mem (substVar_eq_some hv).2)
    | none =>
      rw [Option.getD_none, Term.hasBound]
      rw [substVar_eq_none hv, hasBound_substituteArgs s hs args]
      rfl
theorem hasBound_substituteArgs (s : Subst) (hs : ∀ p ∈ s, Term.hasBound s p.2 = false) :
    ∀ args : List Arg, Arg.hasBoundList s (Unification.substituteArgs args s) = false
  | [] => by rw [Unification.substituteArgs, Arg.hasBoundList]
  | .t v :: rest => by
    rw [Unification.substituteArgs, Arg.hasBoundList, Arg.hasBound]
    rw [hasBound_substitute s hs v, hasBound_substituteArgs s hs rest]
    rfl
  | .s v :: rest => by
    rw [Unification.substituteArgs]
    cases hv : Unification.substVar s v with
    | some b =>
      rw [Option.map_some', Option.getD_some, Arg.hasBoundList, Arg.hasBound]
      rw [hs (v, b) (subLookup_mem (substVar_eq_some hv).2),
        hasBound_substituteArgs s hs rest]
      rfl
    | none =>
      rw [Option.map_none', Option.getD_none, Arg.hasBoundList, Arg.hasBound]
      rw [substVar_eq_none hv, hasBound_substituteArgs s hs rest]
      rfl
end

theorem substituteArgs_length : ∀ (args : List Arg) (s : Subst),
    (Unification.substituteArgs args s).length = args.length := by
  intro args s
  induction args with
  | nil => rw [Unification.substituteArgs]
  | cons a rest ih =>
    cases a with
    | t v => rw [Unification.substituteArgs]; simp [ih]
    | s v => rw [Unification.substituteArgs]; simp [ih]

theorem substitute_not_var {s : Subst} {n : String} (args : List Arg) (h : pyIsupper n = false) :
    Unification.substitute (Term.mk n args) s = Term.mk n (Unification.substituteArgs args s) := by
  rw [Unification.substitute]
  simp [Unification.substVar, h]

theorem renameArgs_ground : ∀ (args : List String) (d : Nat),
    (∀ a ∈ args, pyIsupper a = false) →
    renameArgs (args.map Arg.s) d = args.map Arg.s := by
  intro args d h
  induction args with
  | nil => rw [List.map_nil, renameArgs]
  | cons a rest ih =>
    rw [List.map_cons, renameArgs]
    rw [if_neg (by simp [h a (List.mem_cons_self a rest)])]
    rw [ih (fun x hx => h x (List.mem_cons_of_mem a hx))]

theorem renameTerm_ground {p : String} {args : List String} {d : Nat}
    (hp : pyIsupper p = false) (hargs : ∀ a ∈ args, pyIsupper a = false) :
    renameTerm (Term.mk p (args.map Arg.s)) d = Term.mk p (args.map Arg.s) := by
  rw [renameTerm.eq_def]
  dsimp only
  rw [if_neg (by simp [hp])]
  cases args with
  | nil => rfl
  | cons a rest =>
    show Term.mk p (renameArgs (Arg.s a :: rest.map Arg.s) d) = _
    rw [show (Arg.s a :: rest.map Arg.s) = (a :: rest).map Arg.s from rfl,
      renameArgs_ground (a :: rest) d hargs]

/-- The solutions component of a `query` result. -/
def querySolutions (r : Option ((List Subst × List String) × EngineState)) : Option (List Subst) :=
  r.map (fun x => x.1.1)

/-! ### The claims -/

/-- C1: the claim is what the code intends but not what it does.  For the
knowledge base holding only `loop(X) :- loop(X)`, `query("loop", "a")`
never completes, whatever fuel it is given: depth `d` renames the clause
variable to the fresh name `X_d`, so the goal of the recursive call is a
new term each time, the `(goal, substitution-snapshot)` pair never recurs
on the call stack, the guard never fires, and the Python original recurses
until the native stack is exhausted instead of returning zero solutions. -/
theorem C1_loop_query_never_completes :
    ∀ (fuel : Nat) (st : EngineState), query loopKB fuel "loop" ["a"] st = none := by
  intro fuel st
  simp only [query]
  have h0 := prove_loop_none fuel 0 ⟨[], []⟩ (by intro e he; simp at he)
  rw [show loopGoal 0 = Term.mk "loop" (["a"].map Arg.s) from rfl] at h0
  rw [show loopSub 0 = ([] : Subst) from rfl] at h0
  rw [h0]

/-- The substitution chain `X ↦ Y, Y ↦ a` used against claim C2. -/
def chainSub : Subst := [("X", Term.mk "Y" []), ("Y", Term.mk "a" [])]

/-- C2 counterexample: step 1 of `unify` does not fully resolve binding
chains.  Under `{X ↦ Y, Y ↦ a}` the substituted form of `X` is the still
bound variable `Y`, one dereference short of the final value `a`; the
shortfall is observable through `unify` itself, which records the fresh
binding `Z ↦ Y` instead of `Z ↦ a` when unifying `Z` with `X`. -/
theorem C2_substitute_one_step_counterexample :
    Unification.substitute (Term.mk "X" []) chainSub = Term.mk "Y" []
    ∧ subLookup chainSub "Y" = some (Term.mk "a" [])
    ∧ (Term.mk "Y" []).is_variable = true
    ∧ Term.mk "Y" [] ≠ Term.mk "a" []
    ∧ Unification.unify 10 (Term.mk "Z" []) (Term.mk "X" []) chainSub
        = some (.ok [("X", Term.mk "Y" []), ("Y", Term.mk "a" []), ("Z", Term.mk "Y" [])]) := by
  refine ⟨rfl, rfl, rfl, by decide, ?_⟩
  simp [chainSub, Unification.unify, Unification.substitute, Unification.substituteArgs,
    Unification.substVar, subLookup, subSet, pyIsupper, pyCased, Term.is_variable,
    Term.name, Term.args]

/-- C2 (amended): step 1 of `unify` applies the substitution recursively
through compound arguments but dereferences each variable occurrence
exactly once; a variable bound to another bound variable resolves to that
variable, not to its final value.  Whenever no binding's value itself
contains a bound variable, the single dereference already removes every
bound variable, i.e. it coincides with full application. -/
theorem C2_substitute_resolves_when_range_resolved (s : Subst)
    (hs : ∀ p ∈ s, Term.hasBound s p.2 = false) (t : Term) :
    Term.hasBound s (Unification.substitute t s) = false :=
  hasBound_substitute s hs t

/-- Witness for the amended C2 at a concrete input. -/
theorem C2_substitute_resolves_when_range_resolved_witness :
    Term.hasBound [("X", Term.mk "a" [])]
      (Unification.substitute (Term.mk "f" [Arg.s "X"]) [("X", Term.mk "a" [])]) = false :=
  C2_substitute_resolves_when_range_resolved [("X", Term.mk "a" [])]
    (by decide) (Term.mk "f" [Arg.s "X"])

/-- C3 counterexample: unifying `f(X, b)` with `f(a, c)` fails as a whole,
but the dictionary object the caller passed in is not left as it was: the
first argument pair already wrote `X ↦ a` into it before the second pair
failed. -/
theorem C3_partial_binding_counterexample :
    Unification.unify 10 (Term.mk "f" [Arg.s "X", Arg.s "b"])
        (Term.mk "f" [Arg.s "a", Arg.s "c"]) []
      = some (.fail [("X", Term.mk "a" [])])
    ∧ ([("X", Term.mk "a" [])] : Subst) ≠ [] := by
  constructor
  · simp [Unification.unify, Unification.unifyArgs, Unification.argToTerm,
      Unification.substitute, Unification.substituteArgs, Unification.substVar,
      subLookup, subSet, pyIsupper, pyCased, Term.is_variable, Term.name, Term.args]
  · simp

/-- C3 (amended): when pairwise argument unification fails the whole call
does fail, but the caller's dictionary keeps the bindings added by the
earlier successful pairs; those survivors only extend the dictionary —
every pre-existing entry is left in place (the input is a prefix of the
failed state).  `prove` shields itself by passing `substitution.copy()`. -/
theorem C3_fail_state_extends_input (fuel : Nat) (t1 t2 : Term) (s s' : Subst)
    (h : Unification.unify fuel t1 t2 s = some (.fail s')) :
    ∃ u, s' = s ++ u :=
  Unification.unify_state_extends fuel t1 t2 s _ h

/-- Witness for the amended C3 at a concrete input. -/
theorem C3_fail_state_extends_input_witness :
    ∃ u, ([("X", Term.mk "a" [])] : Subst) = [] ++ u :=
  C3_fail_state_extends_input 10 (Term.mk "f" [Arg.s "X", Arg.s "b"])
    (Term.mk "f" [Arg.s "a", Arg.s "c"]) [] [("X", Term.mk "a" [])]
    (by simp [Unification.unify, Unification.unifyArgs, Unification.argToTerm,
      Unification.substitute, Unification.substituteArgs, Unification.substVar,
      subLookup, subSet, pyIsupper, pyCased, Term.is_variable, Term.name, Term.args])

/-- C4 counterexample: `"Xy"` begins with an uppercase character, yet
`Term("Xy")` is not classified as a variable — Python's `str.isupper()`
requires every cased character to be uppercase, not just the first. -/
theorem C4_leading_uppercase_counterexample :
    "Xy".data.head? = some 'X'
    ∧ 'X'.isUpper = true
    ∧ (Term.mk "Xy" []).is_variable = false :=
  ⟨rfl, by decide, by decide⟩

/-- C4 (amended): variable classification happens at construction, depends
only on the name (never on the argument list), and holds exactly when the
name has at least one cased character and no lowercase character (Python
`str.isupper()`) — not when merely the leading character is uppercase. -/
theorem C4_is_variable_characterisation (name : String) (args args' : List Arg) :
    (Term.mk name args).is_variable = (Term.mk name args').is_variable
    ∧ ((Term.mk name args).is_variable = true ↔
        (∃ c ∈ name.data, pyCased c = true) ∧ ∀ c ∈ name.data, c.isLower = false) := by
  refine ⟨rfl, ?_⟩
  simp [Term.is_variable, Term.name, pyIsupper, List.any_eq_true, List.all_eq_true]

/-- C5 counterexample: `F(a)` and `g(b, c)` are both terms with arguments
("compounds"), have different functor names and different argument counts,
yet `unify` succeeds: the uppercase functor name `F` makes the whole left
term variable-classified, so it is simply bound to the right term. -/
theorem C5_uppercase_functor_counterexample :
    "F" ≠ "g"
    ∧ ([Arg.s "a"].length ≠ [Arg.s "b", Arg.s "c"].length)
    ∧ Unification.unify 10 (Term.mk "F" [Arg.s "a"]) (Term.mk "g" [Arg.s "b", Arg.s "c"]) []
        = some (.ok [("F", Term.mk "g" [Arg.s "b", Arg.s "c"])]) := by
  refine ⟨by decide, by decide, ?_⟩
  simp [Unification.unify, Unification.substitute, Unification.substituteArgs,
    Unification.substVar, subLookup, subSet, pyIsupper, pyCased, Term.is_variable,
    Term.name, Term.args]

/-- C5 (amended): for every pair of terms whose functor names are not
variable-classified (`isupper()` false), a different functor name or a
different argument count makes `unify` fail for every substitution, with
the dictionary returned untouched. -/
theorem C5_mismatched_compounds_fail (f : Nat) (n1 n2 : String) (a1 a2 : List Arg)
    (s : Subst) (h1 : pyIsupper n1 = false) (h2 : pyIsupper n2 = false)
    (hne : n1 ≠ n2 ∨ a1.length ≠ a2.length) :
    Unification.unify (f + 1) (Term.mk n1 a1) (Term.mk n2 a2) s = some (.fail s) := by
  simp only [Unification.unify, substitute_not_var a1 h1, substitute_not_var a2 h2]
  have hneq : Term.mk n1 (Unification.substituteArgs a1 s)
      ≠ Term.mk n2 (Unification.substituteArgs a2 s) := by
    intro he
    injection he with e1 e2
    rcases hne with hn | hl
    · exact hn e1
    · apply hl
      rw [← substituteArgs_length a1 s, ← substituteArgs_length a2 s, e2]
  rw [if_neg hneq]
  rw [if_neg (by simp [Term.is_variable, Term.name, h1])]
  rw [if_neg (by simp [Term.is_variable, Term.name, h2])]
  rw [if_neg ?hc]
  case hc =>
    rintro ⟨e1, e2⟩
    rcases hne with hn | hl
    · exact hn e1
    · apply hl
      rw [← substituteArgs_length a1 s, ← substituteArgs_length a2 s]
      exact e2

/-- Witness for the amended C5 at a concrete input. -/
theorem C5_mismatched_compounds_fail_witness :
    Unification.unify 6 (Term.mk "f" [Arg.s "a"]) (Term.mk "g" [Arg.s "b", Arg.s "c"])
        [("Q", Term.mk "q" [])]
      = some (.fail [("Q", Term.mk "q" [])]) :=
  C5_mismatched_compounds_fail 5 "f" "g" [Arg.s "a"] [Arg.s "b", Arg.s "c"]
    [("Q", Term.mk "q" [])] (by decide) (by decide) (Or.inl (by decide))

/-- C7: `query` resets the trace and the call-stack guard before proving,
so its entire result — the solution sequence, the byte-for-byte trace, and
the engine state left behind — is independent of the engine state the call
started from; re-running the same query against the same knowledge base
with the same fuel, in any order, returns equal results. -/
theorem C7_query_state_independent (kb : KnowledgeBase) (fuel : Nat) (p : String)
    (args : List String) (st1 st2 : EngineState) :
    query kb fuel p args st1 = query kb fuel p args st2 := rfl

/-- C8: every `prove` call that completes leaves the call-stack guard
exactly as it found it — the `(goal, substitution-snapshot)` entry pushed
after the cycle check is popped again on every return path, and the
guard-hit path returns before pushing. -/
theorem C8_prove_restores_call_stack (fuel : Nat) (clauses : List Clause) (goal : Term)
    (s : Subst) (depth : Nat) (st : EngineState) (r : List Subst × EngineState)
    (h : prove fuel clauses goal s depth st = some r) :
    r.2.call_stack = st.call_stack :=
  prove_stack fuel clauses goal s depth st r h

/-- Witness for C8 at a concrete input with a non-empty initial stack. -/
theorem C8_prove_restores_call_stack_witness :
    (([], (⟨["Trying to prove: p", "✗ Cannot prove: p"], [(Term.mk "q" [], [])]⟩ : EngineState))
        : List Subst × EngineState).2.call_stack
      = (⟨[], [(Term.mk "q" [], [])]⟩ : EngineState).call_stack :=
  C8_prove_restores_call_stack 5 [] (Term.mk "p" []) [] 0 ⟨[], [(Term.mk "q" [], [])]⟩ _
    (by simp [prove, proveClauses, matchingClauses, sortSub, indentOf,
      Unification.substitute, Unification.substituteArgs, Unification.substVar,
      subLookup, pyIsupper, pyCased, Term.render, Prod.ext_iff, Term.mk.injEq])

/-- C9: substitutions grow monotonically through the search: every solution
`prove` returns extends the substitution it was called with — the input is
a prefix of the solution, so every existing binding is still present,
unchanged and found by lookup; unification only appends bindings for
previously unbound names. -/
theorem C9_substitutions_grow_monotonically (fuel : Nat) (clauses : List Clause)
    (goal : Term) (s : Subst) (depth : Nat) (st : EngineState)
    (r : List Subst × EngineState) (h : prove fuel clauses goal s depth st = some r) :
    ∀ s' ∈ r.1, (∃ u, s' = s ++ u)
      ∧ ∀ k v, subLookup s k = some v → subLookup s' k = some v := by
  intro s' hs'
  obtain ⟨u, hu⟩ := prove_extends fuel clauses goal s depth st r h s' hs'
  refine ⟨⟨u, hu⟩, ?_⟩
  intro k v hk
  rw [hu]
  exact subLookup_append_some hk u

/-- Witness for C9 at a concrete input with a pre-existing binding. -/
theorem C9_substitutions_grow_monotonically_witness :
    (∃ u, [("Q", Term.mk "b" []), ("X", Term.mk "a" [])] = [("Q", Term.mk "b" [])] ++ u)
    ∧ ∀ k v, subLookup [("Q", Term.mk "b" [])] k = some v →
        subLookup [("Q", Term.mk "b" []), ("X", Term.mk "a" [])] k = some v :=
  C9_substitutions_grow_monotonically 10 [⟨Term.mk "p" [Arg.s "a"], []⟩]
    (Term.mk "p" [Arg.s "X"]) [("Q", Term.mk "b" [])] 0 ⟨[], []⟩
    ([[("Q", Term.mk "b" []), ("X", Term.mk "a" [])]],
      ⟨["Trying to prove: p(X)", "Unified with: p(a)", "✓ Fact proven: p(X)"], []⟩)
    (by
      have hr : rename_variables ⟨Term.mk "p" [Arg.s "a"], []⟩ 0
          = ⟨Term.mk "p" [Arg.s "a"], []⟩ := rfl
      simp [prove, proveClauses, prove_body, matchingClauses, hr,
        sortSub, insertSorted, indentOf,
        Unification.unify, Unification.unifyArgs, Unification.argToTerm,
        Unification.substitute, Unification.substituteArgs, Unification.substVar,
        subLookup, subSet, pyIsupper, pyCased, Term.is_variable, Term.name, Term.args,
        Term.render, Arg.render, Arg.renderList, Clause.render]
      exact ⟨rfl, rfl, rfl⟩)
    [("Q", Term.mk "b" []), ("X", Term.mk "a" [])] (List.mem_singleton.mpr rfl)

/-- C10: the ground-fact cache is dead weight for the search: two knowledge
bases with the same clause list and arbitrarily different `facts` caches
give identical query results — `prove` and `get_matching_clauses` read only
the clause list. -/
theorem C10_facts_cache_irrelevant (kb1 kb2 : KnowledgeBase) (fuel : Nat) (p : String)
    (args : List String) (st : EngineState) (h : kb1.clauses = kb2.clauses) :
    query kb1 fuel p args st = query kb2 fuel p args st := by
  simp only [query, h]

/-- Witness for C10: same clauses, different caches, equal results. -/
theorem C10_facts_cache_irrelevant_witness :
    query ⟨[⟨Term.mk "p" [Arg.s "a"], []⟩], []⟩ 5 "p" ["a"] ⟨[], []⟩
      = query ⟨[⟨Term.mk "p" [Arg.s "a"], []⟩], [Term.mk "p" [Arg.s "a"]]⟩ 5 "p" ["a"] ⟨[], []⟩ :=
  C10_facts_cache_irrelevant _ _ 5 "p" ["a"] ⟨[], []⟩ rfl

/-- The knowledge base holding the single zero-argument fact `P` (an
uppercase predicate name; the fact is ground by the claim's own criterion,
which inspects only the arguments). -/
def kbP : KnowledgeBase := KnowledgeBase.empty.add_fact "P" []

/-- C6 counterexample: `add_fact("P")` stores a ground fact (no argument
matches the variable convention), yet `query("P")` returns its one solution
as the non-empty substitution `{P ↦ P_0}`: the uppercase predicate name is
itself treated as a variable and bound to the renamed clause head. -/
theorem C6_uppercase_predicate_counterexample :
    (∀ a ∈ ([] : List String), pyIsupper a = false)
    ∧ querySolutions (query kbP 20 "P" [] ⟨[], []⟩) = some [[("P", Term.mk "P_0" [])]]
    ∧ [[("P", Term.mk "P_0" [])]] ≠ [([] : Subst)] := by
  refine ⟨by simp, ?_, by simp⟩
  have hr : rename_variables ⟨Term.mk "P" [], []⟩ 0 = ⟨Term.mk "P_0" [], []⟩ := rfl
  simp [querySolutions, query, kbP, KnowledgeBase.add_fact, KnowledgeBase.empty,
    prove, proveClauses, matchingClauses, hr, sortSub, indentOf,
    Unification.unify, Unification.substitute, Unification.substituteArgs,
    Unification.substVar, subLookup, subSet, pyIsupper, pyCased, Term.is_variable,
    Term.name, Term.args, Term.render, Clause.render]

/-- C6 (amended): for every ground fact `p(a1..an)` whose predicate name is
itself not variable-classified, `query(p, a1..an)` returns exactly one
solution, and that solution is the empty substitution.  (As stated the
claim also admits uppercase predicate names, where the code returns a
non-empty substitution instead.) -/
theorem C6_ground_fact_query (p : String) (args : List String) (fuel : Nat)
    (st : EngineState) (hp : pyIsupper p = false)
    (hargs : ∀ a ∈ args, pyIsupper a = false) :
    querySolutions (query (KnowledgeBase.empty.add_fact p args) (fuel + 2) p args st)
      = some [[]] := by
  have hclauses : (KnowledgeBase.empty.add_fact p args).clauses
      = [⟨Term.mk p (args.map Arg.s), []⟩] := rfl
  have hrename : rename_variables ⟨Term.mk p (args.map Arg.s), []⟩ 0
      = ⟨Term.mk p (args.map Arg.s), []⟩ := by
    simp [rename_variables, renameTerm_ground hp hargs]
  have hmatch : matchingClauses [⟨Term.mk p (args.map Arg.s), []⟩] (Term.mk p (args.map Arg.s))
      = [⟨Term.mk p (args.map Arg.s), []⟩] := by
    simp [matchingClauses, Term.name, Term.args]
  have hunify : Unification.unify (fuel + 1) (Term.mk p (args.map Arg.s))
      (Term.mk p (args.map Arg.s)) [] = some (.ok []) := by
    simp only [Unification.unify, Unification.substitute_nil]
    simp
  have h2 : fuel + 2 = (fuel + 1) + 1 := rfl
  rw [h2]
  simp only [querySolutions, query, hclauses, prove, hmatch]
  simp only [proveClauses, hrename, hunify]
  simp [sortSub]

/-- Witness for the amended C6 at a concrete input. -/
theorem C6_ground_fact_query_witness :
    querySolutions (query (KnowledgeBase.empty.add_fact "p" ["a"]) 2 "p" ["a"] ⟨[], []⟩)
      = some [[]] :=
  C6_ground_fact_query "p" ["a"] 0 ⟨[], []⟩ (by decide) (by decide)
